import Mathlib

/-!
Shallow embedding of the ironbar menu module (`src/modules/menu.rs`) and of
the common-config visibility machinery (`src/config/common.rs`).

`IndexMap<String, V>` values are modelled as insertion-ordered association
lists `List (String × V)`.  The map operations used by the source are
embedded one-to-one:

* `IndexMap::get` / `get_mut` — `lookupIM` (first occurrence wins, which on
  the duplicate-free maps built by the program is the unique occurrence);
* `IndexMap::insert` on `sections_by_cat` — `addRoute` (update the value in
  place when the key exists, append at the end otherwise);
* `IndexMap::insert_sorted` — `insert_sorted` (replace the value in place
  when the key exists, otherwise insert the pair at its sorted position).

Strings are compared with Lean's lexicographic `String` order, which agrees
with Rust's `Ord for String` (byte order on UTF-8 agrees with scalar-value
order on valid strings).
-/

/-- `IndexMap::get`: the value stored at `k`, if any (first occurrence). -/
def lookupIM {α : Type} (m : List (String × α)) (k : String) : Option α :=
  match m with
  | [] => none
  | (k', v) :: rest => if k = k' then some v else lookupIM rest k

/-- Lexicographic comparison of character lists, the order `Ord for String`
uses in Rust (byte order on valid UTF-8 agrees with scalar-value order).
Written as an executable Boolean so that concrete runs evaluate; it is
proved equivalent to Mathlib's `<` on `String` below. -/
def charsLt : List Char → List Char → Bool
  | [], [] => false
  | [], _ :: _ => true
  | _ :: _, [] => false
  | a :: as, b :: bs => decide (a < b) || (a == b && charsLt as bs)

/-- Rust's `String` ordering, on the underlying character list. -/
def strLt (a b : String) : Bool := charsLt a.data b.data

/-- `IndexMap::insert_sorted`: replace the value in place when the key is
present, otherwise insert the pair at its sorted position among the keys. -/
def insert_sorted {α : Type} (m : List (String × α)) (k : String) (v : α) :
    List (String × α) :=
  match m with
  | [] => [(k, v)]
  | (k', v') :: rest =>
    if k = k' then (k, v) :: rest
    else if strLt k k' then (k, v) :: (k', v') :: rest
    else (k', v') :: insert_sorted rest k v

/-- `IndexMap::get_mut` followed by a mutation of the found value: apply `f`
to the value stored at `k` (if any), leaving the map unchanged otherwise. -/
def update_entry {α : Type} (m : List (String × α)) (k : String) (f : α → α) :
    List (String × α) :=
  match m with
  | [] => []
  | (k', v) :: rest =>
    if k = k' then (k', f v) :: rest else (k', v) :: update_entry rest k f

/-- The keys of an association list, in storage order. -/
def keysIM {α : Type} (m : List (String × α)) : List String :=
  m.map Prod.fst

/-- The reserved overflow section label (`OTHER_LABEL` in `menu.rs`). -/
def OTHER_LABEL : String := "Other"

/-- `XdgEntry` from `menu.rs`: a configured section with its category tags. -/
structure XdgEntry where
  label : String
  icon : Option String
  categories : List String
deriving DecidableEq

/-- `CustomEntry` from `menu.rs`: a custom menu action. -/
structure CustomEntry where
  icon : Option String
  label : String
  on_click : String
deriving DecidableEq

/-- `MenuConfig` from `menu.rs`: one entry of a slot configuration list. -/
inductive MenuConfig where
  | xdgEntry (entry : XdgEntry)
  | xdgOther
  | custom (entry : CustomEntry)
deriving DecidableEq

/-- `MenuApplication` from `menu.rs`: a discovered application record. -/
structure MenuApplication where
  label : String
  file_name : String
  categories : List String
deriving DecidableEq

/-- `XdgSection` from `menu.rs`: a section holding an ordered map
label → application. -/
structure XdgSection where
  label : String
  icon : Option String
  applications : List (String × MenuApplication)
deriving DecidableEq

/-- `MenuEntry` from `menu.rs`. -/
inductive MenuEntry where
  | xdg (s : XdgSection)
  | custom (e : CustomEntry)
deriving DecidableEq

/-- The category index `sections_by_cat`: tag → list of section labels. -/
abbrev RouteIndex : Type := List (String × List String)

/-- The slot entry maps: label → `MenuEntry`. -/
abbrev EntryMap : Type := List (String × MenuEntry)

/-- The category-registration step of `parse_config` for one `XdgEntry`
category tag: push the label onto the tag's route list when the tag exists,
otherwise insert a fresh singleton route list (appended at the end, as
`IndexMap::insert` does for a new key). -/
def addRoute (sbc : RouteIndex) (cat : String) (lbl : String) : RouteIndex :=
  match sbc with
  | [] => [(cat, [lbl])]
  | (c, ls) :: rest =>
    if cat = c then (c, ls ++ [lbl]) :: rest else (c, ls) :: addRoute rest cat lbl

/-- One step of the `parse_config` fold over the configuration list. -/
def parse_config_step (acc : EntryMap × RouteIndex) (entry_config : MenuConfig) :
    EntryMap × RouteIndex :=
  match entry_config with
  | .xdgEntry entry =>
    let sbc := entry.categories.foldl (fun s cat => addRoute s cat entry.label) acc.2
    (insert_sorted acc.1 entry.label
      (.xdg ⟨entry.label, entry.icon, []⟩), sbc)
  | .xdgOther =>
    (insert_sorted acc.1 OTHER_LABEL
      (.xdg ⟨OTHER_LABEL, some "applications-other", []⟩), acc.2)
  | .custom entry =>
    (insert_sorted acc.1 entry.label (.custom entry), acc.2)

/-- `parse_config` from `menu.rs`: fold a slot's configuration list into the
slot's ordered entry map, threading the category index through. -/
def parse_config (section_config : List MenuConfig) (sections_by_cat : RouteIndex) :
    EntryMap × RouteIndex :=
  section_config.foldl parse_config_step ([], sections_by_cat)

/-- The aggregator state: the three slot entry maps built in `into_popup`. -/
structure MenuState where
  start_entries : EntryMap
  center_entries : EntryMap
  end_entries : EntryMap
deriving DecidableEq

/-- The three `parse_config` calls of `into_popup`, threading
`sections_by_cat` from an empty index through start, center and end. -/
def parse_menu (start center end_cfg : List MenuConfig) : MenuState × RouteIndex :=
  let sc := parse_config start []
  let cc := parse_config center sc.2
  let ec := parse_config end_cfg cc.2
  (⟨sc.1, cc.1, ec.1⟩, ec.2)

/-- Insertion of an application into one section value: a `get_mut` hit that
is an `MenuEntry::Xdg` receives `applications.insert_sorted(label, app)`;
a `Custom` entry is left unchanged (the `if let` pattern fails). -/
def insertXdg (app : MenuApplication) (e : MenuEntry) : MenuEntry :=
  match e with
  | .xdg s => .xdg ⟨s.label, s.icon, insert_sorted s.applications app.label app⟩
  | .custom c => .custom c

/-- The body of the `for section_name in section_names` loop: try the insert
on the entry with key `name` in one slot map. -/
def insert_app_if_xdg (m : EntryMap) (name : String) (app : MenuApplication) :
    EntryMap :=
  update_entry m name (insertXdg app)

/-- One `section_name` iteration: the source tries `start_entries`,
`center_entries` and `end_entries` in turn. -/
def slot_insert (app : MenuApplication) (st : MenuState) (name : String) :
    MenuState :=
  ⟨insert_app_if_xdg st.start_entries name app,
   insert_app_if_xdg st.center_entries name app,
   insert_app_if_xdg st.end_entries name app⟩

/-- The overflow fallback: `center_entries.get_mut(OTHER_LABEL)` and insert. -/
def other_insert (app : MenuApplication) (st : MenuState) : MenuState :=
  ⟨st.start_entries,
   insert_app_if_xdg st.center_entries OTHER_LABEL app,
   st.end_entries⟩

/-- One `for category in application.categories` iteration: on an index hit,
run the inner loop over the resolved section names and set `inserted`. -/
def category_step (sbc : RouteIndex) (app : MenuApplication)
    (acc : MenuState × Bool) (category : String) : MenuState × Bool :=
  match lookupIM sbc category with
  | some section_names => (section_names.foldl (slot_insert app) acc.1, true)
  | none => acc

/-- Classification of one `MenuApplication` (the body of the
`for application in applications` loop in `into_popup`): check every
category against the index, and fall back to the center slot's "Other"
section when no category matched. -/
def process_application (sbc : RouteIndex) (st : MenuState)
    (app : MenuApplication) : MenuState :=
  let r := app.categories.foldl (category_step sbc app) (st, false)
  if r.2 then r.1 else other_insert app r.1

/-- Classification of a delivered batch, in delivery order. -/
def process_applications (sbc : RouteIndex) (st : MenuState)
    (apps : List MenuApplication) : MenuState :=
  apps.foldl (process_application sbc) st

/-- The grapheme-cluster ellipsis marker appended by the truncation step. -/
def ellipsis : String := "…"

/-- Grapheme-cluster model of the label truncation in `spawn_controller`
(`menu.rs` lines 470–476).  A name is a list of grapheme clusters.  The
source computes `max_label_length - 1` on `usize`, which underflows when
`max_label_length = 0`; the embedding makes that underflow explicit by
returning `none` in exactly that case (checked subtraction). -/
def truncate_name (max_label_length : Nat) (name : List String) :
    Option (List String) :=
  if name.length > max_label_length then
    if max_label_length = 0 then none
    else some (name.take (max_label_length - 1) ++ [ellipsis])
  else some name

/-- `default_length` from `menu.rs`: the default `max_label_length`. -/
def default_length : Nat := 25

/-- A script input is opaque to the visibility logic. -/
abbrev ScriptInput : Type := String

/-- The relevant observable state of the module's container widget. -/
structure Container where
  visible : Bool
deriving DecidableEq

/-- `container.show_all()`. -/
def show_all (_c : Container) : Container := ⟨true⟩

/-- `container.hide()`. -/
def hide_container (_c : Container) : Container := ⟨false⟩

/-- The channel-receiver callback of `install_show_if`
(`common.rs` lines 110–117): each delivered poll result toggles
visibility. -/
def handle_show_if_result (c : Container) (success : Bool) : Container :=
  if success then show_all c else hide_container c

/-- `install_show_if` (`common.rs` lines 94–120), observed over a finite
prefix of delivered poll results: with no `show_if` script the container is
shown once and no poll results are ever produced; with a script every
delivered result is fed through `handle_show_if_result`. -/
def install_show_if (show_if : Option ScriptInput) (c : Container)
    (results : List Bool) : Container :=
  match show_if with
  | none => show_all c
  | some _ => results.foldl handle_show_if_result c

/-- Strict key-sortedness of an association list: the well-formedness
invariant that `insert_sorted` maintains (it also implies that keys are
duplicate-free). -/
def SortedKeys {α : Type} (m : List (String × α)) : Prop :=
  List.Pairwise (fun p q => p.1 < q.1) m

/-- Whether some category tag of the record is present in the index: the
final value of the `inserted` flag of the classification loop. -/
def app_matched (sbc : RouteIndex) (app : MenuApplication) : Bool :=
  app.categories.any (fun cat => (lookupIM sbc cat).isSome)

/-- The concatenation, in loop order, of the route lists of the matched
category tags: the section names the inner loop runs over. -/
def app_targets (sbc : RouteIndex) (cats : List String) : List String :=
  match cats with
  | [] => []
  | c :: rest =>
    (match lookupIM sbc c with
     | some ns => ns
     | none => []) ++ app_targets sbc rest

/-- Every `Xdg` section stored in an entry map has sorted applications. -/
def SectionsSorted (m : EntryMap) : Prop :=
  ∀ p ∈ m, ∀ s : XdgSection, p.2 = MenuEntry.xdg s → SortedKeys s.applications

/-- One of the three fixed placement regions. -/
inductive Slot where
  | start
  | center
  | endSlot
deriving DecidableEq

/-- The entry map a slot holds. -/
def MenuState.slotEntries (st : MenuState) (sl : Slot) : EntryMap :=
  match sl with
  | .start => st.start_entries
  | .center => st.center_entries
  | .endSlot => st.end_entries

/-- Demonstration slot configurations: a "Tools" section in the start slot
and a "Stuff" section in the end slot both claim the "Utility" tag; the
center slot holds the catch-all section. -/
def demo_start : List MenuConfig := [MenuConfig.xdgEntry ⟨"Tools", none, ["Utility"]⟩]

/-- Demonstration center slot: just the catch-all section. -/
def demo_center : List MenuConfig := [MenuConfig.xdgOther]

/-- Demonstration end slot (see `demo_start`). -/
def demo_end : List MenuConfig := [MenuConfig.xdgEntry ⟨"Stuff", none, ["Utility"]⟩]

/-- A demonstration record carrying the configured "Utility" tag. -/
def demo_app : MenuApplication := ⟨"App", "app.desktop", ["Utility"]⟩

/-- A demonstration record whose only tag matches nothing. -/
def demo_foo : MenuApplication := ⟨"Foo", "foo.desktop", ["Unknown"]⟩

/-- Two demonstration records sharing the display label "A" while carrying
different identifiers (file names). -/
def demo_a1 : MenuApplication := ⟨"A", "a1.desktop", ["X"]⟩

/-- See `demo_a1`. -/
def demo_a2 : MenuApplication := ⟨"A", "a2.desktop", ["X"]⟩

/-! Basic lemmas about the embedded `IndexMap` operations. -/

theorem charsLt_iff : ∀ as bs : List Char, charsLt as bs = true ↔ as < bs := by
  intro as
  induction as with
  | nil =>
    intro bs
    cases bs with
    | nil => simp [charsLt]
    | cons b bs =>
      simp [charsLt]
      exact List.nil_lt_cons b bs
  | cons a as ih =>
    intro bs
    cases bs with
    | nil => simp [charsLt]
    | cons b bs =>
      simp only [charsLt, Bool.or_eq_true, Bool.and_eq_true, decide_eq_true_iff,
        beq_iff_eq]
      constructor
      · intro h
        rcases h with h | ⟨rfl, h⟩
        · exact List.Lex.rel h
        · exact List.Lex.cons ((ih bs).mp h)
      · intro h
        cases h with
        | cons h => exact Or.inr ⟨rfl, (ih bs).mpr h⟩
        | rel h => exact Or.inl h

theorem strLt_iff (a b : String) : strLt a b = true ↔ a < b := by
  rw [strLt, charsLt_iff, String.lt_iff_toList_lt]
  rfl

theorem lt_of_strLt {a b : String} (h : strLt a b = true) : a < b :=
  (strLt_iff a b).mp h

theorem strLt_true_of_lt {a b : String} (h : a < b) : strLt a b = true :=
  (strLt_iff a b).mpr h

theorem strLt_false_of_not_lt {a b : String} (h : ¬a < b) : strLt a b = false := by
  cases hb : strLt a b
  · rfl
  · exact absurd (lt_of_strLt hb) h

theorem strLt_false_of_lt {a b : String} (h : b < a) : strLt a b = false :=
  strLt_false_of_not_lt (lt_asymm h)

theorem lt_of_not_strLt {a b : String} (h : ¬strLt a b = true) (hne : a ≠ b) :
    b < a := by
  rcases lt_trichotomy a b with h1 | h1 | h1
  · exact absurd (strLt_true_of_lt h1) h
  · exact absurd h1 hne
  · exact h1

theorem lookupIM_insert_sorted_self {α : Type} (m : List (String × α)) (k : String) (v : α) :
    lookupIM (insert_sorted m k v) k = some v := by
  induction m with
  | nil => simp [insert_sorted, lookupIM]
  | cons p rest ih =>
    obtain ⟨k', v'⟩ := p
    by_cases h1 : k = k'
    · simp [insert_sorted, h1, lookupIM]
    · by_cases h2 : strLt k k' = true
      · simp [insert_sorted, h1, h2, lookupIM]
      · simp [insert_sorted, h1, h2, lookupIM, ih]

theorem lookupIM_insert_sorted_ne {α : Type} {k' k : String} (hne : k' ≠ k)
    (m : List (String × α)) (v : α) :
    lookupIM (insert_sorted m k v) k' = lookupIM m k' := by
  induction m with
  | nil => simp [insert_sorted, lookupIM, hne]
  | cons p rest ih =>
    obtain ⟨k'', v''⟩ := p
    by_cases h1 : k = k''
    · subst h1
      simp [insert_sorted, lookupIM, hne]
    · by_cases h2 : strLt k k'' = true
      · simp [insert_sorted, h1, h2, lookupIM, hne]
      · simp [insert_sorted, h1, h2, lookupIM, ih]

theorem lookupIM_update_entry_self {α : Type} (m : List (String × α)) (k : String)
    (f : α → α) :
    lookupIM (update_entry m k f) k = (lookupIM m k).map f := by
  induction m with
  | nil => simp [update_entry, lookupIM]
  | cons p rest ih =>
    obtain ⟨k', v⟩ := p
    by_cases h1 : k = k'
    · simp [update_entry, h1, lookupIM]
    · simp [update_entry, h1, lookupIM, ih]

theorem lookupIM_update_entry_ne {α : Type} {k' k : String} (hne : k' ≠ k)
    (m : List (String × α)) (f : α → α) :
    lookupIM (update_entry m k f) k' = lookupIM m k' := by
  induction m with
  | nil => simp [update_entry]
  | cons p rest ih =>
    obtain ⟨k'', v⟩ := p
    by_cases h1 : k = k''
    · subst h1
      simp [update_entry, lookupIM, hne]
    · by_cases h2 : k' = k''
      · simp [update_entry, h1, lookupIM, h2]
      · simp [update_entry, h1, lookupIM, h2, ih]

theorem keysIM_update_entry {α : Type} (m : List (String × α)) (k : String)
    (f : α → α) :
    keysIM (update_entry m k f) = keysIM m := by
  induction m with
  | nil => simp [update_entry]
  | cons p rest ih =>
    obtain ⟨k', v⟩ := p
    by_cases h1 : k = k'
    · simp [update_entry, h1, keysIM]
    · simp [update_entry, h1, keysIM] at ih ⊢
      exact ih

theorem mem_insert_sorted {α : Type} {m : List (String × α)} {k : String} {v : α}
    {q : String × α} (h : q ∈ insert_sorted m k v) : q = (k, v) ∨ q ∈ m := by
  induction m with
  | nil => simpa [insert_sorted] using h
  | cons p rest ih =>
    obtain ⟨k', v'⟩ := p
    by_cases h1 : k = k'
    · rw [show insert_sorted ((k', v') :: rest) k v = (k, v) :: rest from by
        simp [insert_sorted, h1]] at h
      rcases List.mem_cons.mp h with h | h
      · exact Or.inl h
      · exact Or.inr (List.mem_cons_of_mem _ h)
    · by_cases h2 : strLt k k' = true
      · rw [show insert_sorted ((k', v') :: rest) k v = (k, v) :: (k', v') :: rest from by
          simp [insert_sorted, h1, h2]] at h
        rcases List.mem_cons.mp h with h | h
        · exact Or.inl h
        · exact Or.inr h
      · rw [show insert_sorted ((k', v') :: rest) k v = (k', v') :: insert_sorted rest k v from by
          simp [insert_sorted, h1, h2]] at h
        rcases List.mem_cons.mp h with h | h
        · exact Or.inr (h ▸ List.mem_cons_self _ _)
        · rcases ih h with h3 | h3
          · exact Or.inl h3
          · exact Or.inr (List.mem_cons_of_mem _ h3)

theorem sortedKeys_insert_sorted {α : Type} {m : List (String × α)} (k : String)
    (v : α) (h : SortedKeys m) : SortedKeys (insert_sorted m k v) := by
  induction m with
  | nil => simp [insert_sorted, SortedKeys]
  | cons p rest ih =>
    obtain ⟨k', v'⟩ := p
    rw [SortedKeys, List.pairwise_cons] at h
    obtain ⟨hall, hrest⟩ := h
    by_cases h1 : k = k'
    · rw [show insert_sorted ((k', v') :: rest) k v = (k, v) :: rest from by
        simp [insert_sorted, h1]]
      rw [SortedKeys, List.pairwise_cons]
      exact ⟨fun q hq => h1 ▸ hall q hq, hrest⟩
    · by_cases h2 : strLt k k' = true
      · rw [show insert_sorted ((k', v') :: rest) k v = (k, v) :: (k', v') :: rest from by
          simp [insert_sorted, h1, h2]]
        rw [SortedKeys, List.pairwise_cons]
        refine ⟨?_, ?_⟩
        · intro q hq
          rcases List.mem_cons.mp hq with h3 | h3
          · exact h3 ▸ lt_of_strLt h2
          · exact lt_trans (lt_of_strLt h2) (hall q h3)
        · rw [List.pairwise_cons]
          exact ⟨hall, hrest⟩
      · have h3 : k' < k := lt_of_not_strLt h2 h1
        rw [show insert_sorted ((k', v') :: rest) k v = (k', v') :: insert_sorted rest k v from by
          simp [insert_sorted, h1, h2]]
        rw [SortedKeys, List.pairwise_cons]
        refine ⟨?_, ih hrest⟩
        intro q hq
        rcases mem_insert_sorted hq with h4 | h4
        · exact h4 ▸ h3
        · exact hall q h4

theorem insert_sorted_overwrite {α : Type} (m : List (String × α)) (k : String)
    (v w : α) :
    insert_sorted (insert_sorted m k v) k w = insert_sorted m k w := by
  induction m with
  | nil => simp [insert_sorted]
  | cons p rest ih =>
    obtain ⟨k', v'⟩ := p
    by_cases h1 : k = k'
    · simp [insert_sorted, h1]
    · by_cases h2 : strLt k k' = true
      · simp [insert_sorted, h1, h2]
      · simp [insert_sorted, h1, h2, ih]

theorem insert_sorted_comm {α : Type} {k₁ k₂ : String} (hne : k₁ ≠ k₂)
    (m : List (String × α)) (v₁ v₂ : α) :
    insert_sorted (insert_sorted m k₁ v₁) k₂ v₂ =
      insert_sorted (insert_sorted m k₂ v₂) k₁ v₁ := by
  induction m with
  | nil =>
    rcases lt_trichotomy k₁ k₂ with h | h | h
    · simp [insert_sorted, hne, Ne.symm hne, strLt_true_of_lt h, strLt_false_of_lt h]
    · exact absurd h hne
    · simp [insert_sorted, hne, Ne.symm hne, strLt_true_of_lt h, strLt_false_of_lt h]
  | cons p rest ih =>
    obtain ⟨k', v'⟩ := p
    by_cases h1 : k₁ = k'
    · subst h1
      rcases lt_trichotomy k₂ k₁ with h | h | h
      · simp [insert_sorted, hne, Ne.symm hne, strLt_true_of_lt h, strLt_false_of_lt h]
      · exact absurd h.symm hne
      · simp [insert_sorted, hne, Ne.symm hne, strLt_true_of_lt h, strLt_false_of_lt h]
    · by_cases h2 : k₂ = k'
      · subst h2
        rcases lt_trichotomy k₁ k₂ with h | h | h
        · simp [insert_sorted, hne, Ne.symm hne, strLt_true_of_lt h, strLt_false_of_lt h]
        · exact absurd h hne
        · simp [insert_sorted, hne, Ne.symm hne, strLt_true_of_lt h, strLt_false_of_lt h]
      · by_cases h3 : strLt k₁ k' = true
        · by_cases h4 : strLt k₂ k' = true
          · rcases lt_trichotomy k₁ k₂ with h | h | h
            · simp [insert_sorted, h1, h2, h3, h4, hne, Ne.symm hne, strLt_true_of_lt h, strLt_false_of_lt h]
            · exact absurd h hne
            · simp [insert_sorted, h1, h2, h3, h4, hne, Ne.symm hne, strLt_true_of_lt h, strLt_false_of_lt h]
          · have h5 : k' < k₂ := lt_of_not_strLt h4 h2
            have h6 : k₁ < k₂ := lt_trans (lt_of_strLt h3) h5
            simp [insert_sorted, h1, h2, h3, h4, hne, Ne.symm hne, strLt_true_of_lt h6, strLt_false_of_lt h6]
        · by_cases h4 : strLt k₂ k' = true
          · have h5 : k' < k₁ := lt_of_not_strLt h3 h1
            have h6 : k₂ < k₁ := lt_trans (lt_of_strLt h4) h5
            simp [insert_sorted, h1, h2, h3, h4, hne, Ne.symm hne, strLt_true_of_lt h6, strLt_false_of_lt h6]
          · simp [insert_sorted, h1, h2, h3, h4, ih]

theorem update_entry_comm_ne {α : Type} {k₁ k₂ : String} (hne : k₁ ≠ k₂)
    (m : List (String × α)) (f g : α → α) :
    update_entry (update_entry m k₁ f) k₂ g =
      update_entry (update_entry m k₂ g) k₁ f := by
  induction m with
  | nil => simp [update_entry]
  | cons p rest ih =>
    obtain ⟨k', v⟩ := p
    by_cases h1 : k₁ = k'
    · subst h1
      simp [update_entry, hne, Ne.symm hne]
    · by_cases h2 : k₂ = k'
      · subst h2
        simp [update_entry, h1, hne, Ne.symm hne]
      · simp [update_entry, h1, h2, ih]

theorem update_entry_update_entry {α : Type} (m : List (String × α)) (k : String)
    (f g : α → α) :
    update_entry (update_entry m k f) k g = update_entry m k (fun x => g (f x)) := by
  induction m with
  | nil => simp [update_entry]
  | cons p rest ih =>
    obtain ⟨k', v⟩ := p
    by_cases h1 : k = k'
    · simp [update_entry, h1]
    · simp [update_entry, h1, ih]

/-! Normal form of the classification loop and commutation lemmas. -/

theorem app_targets_eq_nil {sbc : RouteIndex} {cats : List String}
    (h : cats.any (fun c => (lookupIM sbc c).isSome) = false) :
    app_targets sbc cats = [] := by
  induction cats with
  | nil => rfl
  | cons c rest ih =>
    simp only [List.any_cons, Bool.or_eq_false_iff] at h
    obtain ⟨h1, h2⟩ := h
    rcases hc : lookupIM sbc c with _ | ns
    · simp [app_targets, hc, ih h2]
    · rw [hc] at h1
      simp at h1

theorem category_fold_eq (sbc : RouteIndex) (app : MenuApplication)
    (cats : List String) :
    ∀ (st : MenuState) (b : Bool),
      cats.foldl (category_step sbc app) (st, b) =
        ((app_targets sbc cats).foldl (slot_insert app) st,
          b || cats.any (fun c => (lookupIM sbc c).isSome)) := by
  induction cats with
  | nil => intro st b; simp [app_targets]
  | cons c rest ih =>
    intro st b
    rcases hc : lookupIM sbc c with _ | ns
    · simp only [List.foldl_cons, category_step, hc]
      rw [ih st b]
      simp [app_targets, hc]
    · simp only [List.foldl_cons, category_step, hc]
      rw [ih (ns.foldl (slot_insert app) st) true]
      simp [app_targets, hc, List.foldl_append]

theorem process_application_eq (sbc : RouteIndex) (st : MenuState)
    (app : MenuApplication) :
    process_application sbc st app =
      if app_matched sbc app then
        (app_targets sbc app.categories).foldl (slot_insert app) st
      else other_insert app st := by
  show (let r := app.categories.foldl (category_step sbc app) (st, false);
        if r.2 then r.1 else other_insert app r.1) = _
  rw [category_fold_eq sbc app app.categories st false]
  by_cases h : app.categories.any (fun c => (lookupIM sbc c).isSome) = true
  · simp [h, app_matched]
  · have h' : app.categories.any (fun c => (lookupIM sbc c).isSome) = false := by
      simpa using h
    simp [h', app_matched, app_targets_eq_nil h']

theorem insertXdg_comm {a b : MenuApplication} (hne : a.label ≠ b.label)
    (e : MenuEntry) :
    insertXdg b (insertXdg a e) = insertXdg a (insertXdg b e) := by
  cases e with
  | custom c => rfl
  | xdg s =>
    exact congrArg (fun l => MenuEntry.xdg ⟨s.label, s.icon, l⟩)
      (insert_sorted_comm hne s.applications a b)

theorem insertXdg_idem (a : MenuApplication) (e : MenuEntry) :
    insertXdg a (insertXdg a e) = insertXdg a e := by
  cases e with
  | custom c => rfl
  | xdg s =>
    exact congrArg (fun l => MenuEntry.xdg ⟨s.label, s.icon, l⟩)
      (insert_sorted_overwrite s.applications a.label a a)

theorem insert_app_if_xdg_comm {a b : MenuApplication} (hne : a.label ≠ b.label)
    (m : EntryMap) (n₁ n₂ : String) :
    insert_app_if_xdg (insert_app_if_xdg m n₁ a) n₂ b =
      insert_app_if_xdg (insert_app_if_xdg m n₂ b) n₁ a := by
  by_cases h : n₁ = n₂
  · subst h
    rw [insert_app_if_xdg, insert_app_if_xdg, update_entry_update_entry,
        insert_app_if_xdg, insert_app_if_xdg, update_entry_update_entry]
    congr 1
    funext e
    exact insertXdg_comm hne e
  · exact update_entry_comm_ne h m (insertXdg a) (insertXdg b)

theorem slot_insert_comm {a b : MenuApplication} (hne : a.label ≠ b.label)
    (st : MenuState) (n₁ n₂ : String) :
    slot_insert b (slot_insert a st n₁) n₂ = slot_insert a (slot_insert b st n₂) n₁ := by
  simp only [slot_insert]
  rw [insert_app_if_xdg_comm hne st.start_entries n₁ n₂,
      insert_app_if_xdg_comm hne st.center_entries n₁ n₂,
      insert_app_if_xdg_comm hne st.end_entries n₁ n₂]

theorem other_insert_slot_insert_comm {a b : MenuApplication}
    (hne : a.label ≠ b.label) (st : MenuState) (n : String) :
    other_insert b (slot_insert a st n) = slot_insert a (other_insert b st) n := by
  simp only [other_insert, slot_insert]
  rw [insert_app_if_xdg_comm hne st.center_entries n OTHER_LABEL]

theorem other_insert_comm {a b : MenuApplication} (hne : a.label ≠ b.label)
    (st : MenuState) :
    other_insert b (other_insert a st) = other_insert a (other_insert b st) := by
  simp only [other_insert]
  rw [insert_app_if_xdg_comm hne st.center_entries OTHER_LABEL OTHER_LABEL]

theorem slot_insert_foldl_comm {a b : MenuApplication} (hne : a.label ≠ b.label)
    (T : List String) (n : String) :
    ∀ st : MenuState,
      slot_insert b (T.foldl (slot_insert a) st) n =
        T.foldl (slot_insert a) (slot_insert b st n) := by
  induction T with
  | nil => intro st; rfl
  | cons t T ih =>
    intro st
    simp only [List.foldl_cons]
    rw [ih (slot_insert a st t), slot_insert_comm hne st t n]

theorem other_insert_foldl_comm {a b : MenuApplication} (hne : a.label ≠ b.label)
    (T : List String) :
    ∀ st : MenuState,
      other_insert b (T.foldl (slot_insert a) st) =
        T.foldl (slot_insert a) (other_insert b st) := by
  induction T with
  | nil => intro st; rfl
  | cons t T ih =>
    intro st
    simp only [List.foldl_cons]
    rw [ih (slot_insert a st t), other_insert_slot_insert_comm hne st t]

theorem foldl_foldl_slot_insert_comm {a b : MenuApplication}
    (hne : a.label ≠ b.label) (Ta Tb : List String) :
    ∀ st : MenuState,
      Tb.foldl (slot_insert b) (Ta.foldl (slot_insert a) st) =
        Ta.foldl (slot_insert a) (Tb.foldl (slot_insert b) st) := by
  induction Tb with
  | nil => intro st; rfl
  | cons t T ih =>
    intro st
    simp only [List.foldl_cons]
    rw [slot_insert_foldl_comm hne Ta t st, ih (slot_insert b st t)]

theorem process_application_comm (sbc : RouteIndex) {a b : MenuApplication}
    (hne : a.label ≠ b.label) (st : MenuState) :
    process_application sbc (process_application sbc st a) b =
      process_application sbc (process_application sbc st b) a := by
  rw [process_application_eq, process_application_eq, process_application_eq,
      process_application_eq]
  by_cases ha : app_matched sbc a <;> by_cases hb : app_matched sbc b <;>
    simp only [ha, hb, if_true, if_false, Bool.false_eq_true, ite_true, ite_false]
  · exact foldl_foldl_slot_insert_comm hne _ _ st
  · exact other_insert_foldl_comm hne _ st
  · exact (other_insert_foldl_comm hne.symm _ st).symm
  · exact other_insert_comm hne st

theorem process_applications_perm (sbc : RouteIndex) (st : MenuState)
    {l₁ l₂ : List MenuApplication} (hp : l₁.Perm l₂)
    (hnd : (l₁.map MenuApplication.label).Nodup) :
    process_applications sbc st l₁ = process_applications sbc st l₂ := by
  unfold process_applications
  refine hp.foldl_eq' ?_ st
  intro x hx y hy z
  by_cases hxy : x = y
  · subst hxy; rfl
  · have hlab : x.label ≠ y.label := fun he =>
      hxy (List.inj_on_of_nodup_map hnd hx hy he)
    exact process_application_comm sbc hlab z

/-! Lookup, keys and sortedness facts about the processing loop. -/

theorem slotEntries_slot_insert (app : MenuApplication) (st : MenuState)
    (n : String) (sl : Slot) :
    (slot_insert app st n).slotEntries sl =
      insert_app_if_xdg (st.slotEntries sl) n app := by
  cases sl <;> rfl

theorem slotEntries_other_insert (app : MenuApplication) (st : MenuState)
    (sl : Slot) :
    (other_insert app st).slotEntries sl =
      if sl = Slot.center then
        insert_app_if_xdg (st.slotEntries sl) OTHER_LABEL app
      else st.slotEntries sl := by
  cases sl <;> rfl

theorem lookupIM_insert_app_if_xdg_self (m : EntryMap) (n : String)
    (app : MenuApplication) :
    lookupIM (insert_app_if_xdg m n app) n = (lookupIM m n).map (insertXdg app) :=
  lookupIM_update_entry_self m n (insertXdg app)

theorem lookupIM_insert_app_if_xdg_ne {k n : String} (hne : k ≠ n) (m : EntryMap)
    (app : MenuApplication) :
    lookupIM (insert_app_if_xdg m n app) k = lookupIM m k :=
  lookupIM_update_entry_ne hne m (insertXdg app)

theorem lookupIM_foldl_slot_insert (app : MenuApplication) (T : List String)
    (sl : Slot) (k : String) :
    ∀ st : MenuState,
      lookupIM ((T.foldl (slot_insert app) st).slotEntries sl) k =
        (lookupIM (st.slotEntries sl) k).map
          (fun e => if k ∈ T then insertXdg app e else e) := by
  induction T with
  | nil =>
    intro st
    cases h : lookupIM (st.slotEntries sl) k <;> simp [h]
  | cons t T ih =>
    intro st
    simp only [List.foldl_cons]
    rw [ih (slot_insert app st t), slotEntries_slot_insert]
    by_cases hk : k = t
    · subst hk
      rw [lookupIM_insert_app_if_xdg_self]
      cases hv : lookupIM (st.slotEntries sl) k with
      | none => simp
      | some e =>
        by_cases hT : k ∈ T
        · simp [hT, insertXdg_idem]
        · simp [hT]
    · rw [lookupIM_insert_app_if_xdg_ne hk]
      cases hv : lookupIM (st.slotEntries sl) k with
      | none => simp
      | some e => simp [List.mem_cons, hk]

theorem keysIM_insert_app_if_xdg (m : EntryMap) (n : String)
    (app : MenuApplication) :
    keysIM (insert_app_if_xdg m n app) = keysIM m :=
  keysIM_update_entry m n (insertXdg app)

theorem keysIM_foldl_slot_insert (app : MenuApplication) (T : List String)
    (sl : Slot) :
    ∀ st : MenuState,
      keysIM ((T.foldl (slot_insert app) st).slotEntries sl) =
        keysIM (st.slotEntries sl) := by
  induction T with
  | nil => intro st; rfl
  | cons t T ih =>
    intro st
    simp only [List.foldl_cons]
    rw [ih (slot_insert app st t), slotEntries_slot_insert,
        keysIM_insert_app_if_xdg]

theorem keysIM_process_application (sbc : RouteIndex) (app : MenuApplication)
    (sl : Slot) (st : MenuState) :
    keysIM ((process_application sbc st app).slotEntries sl) =
      keysIM (st.slotEntries sl) := by
  rw [process_application_eq]
  by_cases h : app_matched sbc app
  · rw [if_pos h, keysIM_foldl_slot_insert]
  · rw [if_neg h, slotEntries_other_insert]
    by_cases hsl : sl = Slot.center
    · rw [if_pos hsl, keysIM_insert_app_if_xdg]
    · rw [if_neg hsl]

theorem keysIM_process_applications (sbc : RouteIndex)
    (apps : List MenuApplication) (sl : Slot) :
    ∀ st : MenuState,
      keysIM ((process_applications sbc st apps).slotEntries sl) =
        keysIM (st.slotEntries sl) := by
  induction apps with
  | nil => intro st; rfl
  | cons a apps ih =>
    intro st
    show keysIM ((process_applications sbc (process_application sbc st a) apps).slotEntries sl) = _
    rw [ih (process_application sbc st a), keysIM_process_application]

theorem mem_update_entry {α : Type} {m : List (String × α)} {k : String}
    {f : α → α} {p : String × α} (h : p ∈ update_entry m k f) :
    p ∈ m ∨ ∃ q ∈ m, p = (q.1, f q.2) := by
  induction m with
  | nil => simp [update_entry] at h
  | cons q rest ih =>
    obtain ⟨k', v⟩ := q
    by_cases h1 : k = k'
    · rw [show update_entry ((k', v) :: rest) k f = (k', f v) :: rest from by
        simp [update_entry, h1]] at h
      rcases List.mem_cons.mp h with h | h
      · exact Or.inr ⟨(k', v), List.mem_cons_self _ _, h⟩
      · exact Or.inl (List.mem_cons_of_mem _ h)
    · rw [show update_entry ((k', v) :: rest) k f = (k', v) :: update_entry rest k f from by
        simp [update_entry, h1]] at h
      rcases List.mem_cons.mp h with h | h
      · exact Or.inl (h ▸ List.mem_cons_self _ _)
      · rcases ih h with h2 | ⟨q, hq, he⟩
        · exact Or.inl (List.mem_cons_of_mem _ h2)
        · exact Or.inr ⟨q, List.mem_cons_of_mem _ hq, he⟩

theorem sectionsSorted_insert_app_if_xdg {m : EntryMap} (h : SectionsSorted m)
    (n : String) (app : MenuApplication) :
    SectionsSorted (insert_app_if_xdg m n app) := by
  intro p hp s hs
  rcases mem_update_entry hp with h1 | ⟨q, hq, he⟩
  · exact h p h1 s hs
  · subst he
    cases hq2 : q.2 with
    | custom c =>
      rw [hq2] at hs
      exact MenuEntry.noConfusion hs
    | xdg s0 =>
      rw [hq2] at hs
      simp only [insertXdg] at hs
      cases hs
      exact sortedKeys_insert_sorted app.label app (h q hq s0 hq2)

theorem sectionsSorted_foldl_slot_insert (app : MenuApplication)
    (T : List String) (sl : Slot) :
    ∀ st : MenuState, SectionsSorted (st.slotEntries sl) →
      SectionsSorted ((T.foldl (slot_insert app) st).slotEntries sl) := by
  induction T with
  | nil => intro st h; exact h
  | cons t T ih =>
    intro st h
    simp only [List.foldl_cons]
    refine ih (slot_insert app st t) ?_
    rw [slotEntries_slot_insert]
    exact sectionsSorted_insert_app_if_xdg h t app

theorem sectionsSorted_process_application (sbc : RouteIndex)
    (app : MenuApplication) (sl : Slot) (st : MenuState)
    (h : SectionsSorted (st.slotEntries sl)) :
    SectionsSorted ((process_application sbc st app).slotEntries sl) := by
  rw [process_application_eq]
  by_cases hm : app_matched sbc app
  · rw [if_pos hm]
    exact sectionsSorted_foldl_slot_insert app _ sl st h
  · rw [if_neg hm, slotEntries_other_insert]
    by_cases hsl : sl = Slot.center
    · rw [if_pos hsl]
      exact sectionsSorted_insert_app_if_xdg h OTHER_LABEL app
    · rw [if_neg hsl]
      exact h

theorem sectionsSorted_process_applications (sbc : RouteIndex)
    (apps : List MenuApplication) (sl : Slot) :
    ∀ st : MenuState, SectionsSorted (st.slotEntries sl) →
      SectionsSorted ((process_applications sbc st apps).slotEntries sl) := by
  induction apps with
  | nil => intro st h; exact h
  | cons a apps ih =>
    intro st h
    exact ih (process_application sbc st a)
      (sectionsSorted_process_application sbc a sl st h)

theorem sectionsSorted_insert_sorted {m : EntryMap} (h : SectionsSorted m)
    {k : String} {v : MenuEntry}
    (hv : ∀ s : XdgSection, v = MenuEntry.xdg s → SortedKeys s.applications) :
    SectionsSorted (insert_sorted m k v) := by
  intro p hp s hs
  rcases mem_insert_sorted hp with h1 | h1
  · subst h1
    exact hv s hs
  · exact h p h1 s hs

theorem sortedKeys_parse_config_fold (cfgs : List MenuConfig) :
    ∀ acc : EntryMap × RouteIndex, SortedKeys acc.1 →
      SortedKeys (cfgs.foldl parse_config_step acc).1 := by
  induction cfgs with
  | nil => intro acc h; exact h
  | cons c rest ih =>
    intro acc h
    simp only [List.foldl_cons]
    refine ih (parse_config_step acc c) ?_
    cases c <;> simp only [parse_config_step] <;>
      exact sortedKeys_insert_sorted _ _ h

theorem sortedKeys_parse_config (cfgs : List MenuConfig) (sbc : RouteIndex) :
    SortedKeys (parse_config cfgs sbc).1 :=
  sortedKeys_parse_config_fold cfgs ([], sbc) (by simp [SortedKeys])

theorem sectionsSorted_parse_config_fold (cfgs : List MenuConfig) :
    ∀ acc : EntryMap × RouteIndex, SectionsSorted acc.1 →
      SectionsSorted (cfgs.foldl parse_config_step acc).1 := by
  induction cfgs with
  | nil => intro acc h; exact h
  | cons c rest ih =>
    intro acc h
    simp only [List.foldl_cons]
    refine ih (parse_config_step acc c) ?_
    cases c with
    | xdgEntry e =>
      refine sectionsSorted_insert_sorted h ?_
      intro s hs
      cases hs
      simp [SortedKeys]
    | xdgOther =>
      refine sectionsSorted_insert_sorted h ?_
      intro s hs
      cases hs
      simp [SortedKeys]
    | custom e =>
      refine sectionsSorted_insert_sorted h ?_
      intro s hs
      exact MenuEntry.noConfusion hs

theorem sectionsSorted_parse_config (cfgs : List MenuConfig) (sbc : RouteIndex) :
    SectionsSorted (parse_config cfgs sbc).1 :=
  sectionsSorted_parse_config_fold cfgs ([], sbc) (by intro p hp; simp at hp)

theorem lookupIM_mem {α : Type} {m : List (String × α)} {k : String} {v : α}
    (h : lookupIM m k = some v) : (k, v) ∈ m := by
  induction m with
  | nil => simp [lookupIM] at h
  | cons p rest ih =>
    obtain ⟨k', v'⟩ := p
    by_cases h1 : k = k'
    · rw [lookupIM, if_pos h1] at h
      subst h1
      obtain rfl : v' = v := Option.some.inj h
      exact List.mem_cons_self _ _
    · rw [lookupIM, if_neg h1] at h
      exact List.mem_cons_of_mem _ (ih h)

theorem countP_key_eq_one {α : Type} {m : List (String × α)} {k : String}
    (hs : SortedKeys m) (hmem : k ∈ keysIM m) :
    m.countP (fun p => p.1 == k) = 1 := by
  have hnd : (keysIM m).Nodup := by
    have hp : (keysIM m).Pairwise (· < ·) := by
      rw [keysIM, List.pairwise_map]
      exact hs
    exact hp.imp ne_of_lt
  have h1 : (keysIM m).count k = m.countP (fun p => p.1 == k) := by
    rw [keysIM, List.count, List.countP_map]
    rfl
  rw [← h1]
  exact List.count_eq_one_of_mem hnd hmem

/-! Helper characterizations of the matched flag and the target list. -/

theorem mem_app_targets {sbc : RouteIndex} {cats : List String} {cat : String}
    {names : List String} {name : String} (hc : cat ∈ cats)
    (hl : lookupIM sbc cat = some names) (hn : name ∈ names) :
    name ∈ app_targets sbc cats := by
  induction cats with
  | nil => cases hc
  | cons c rest ih =>
    rw [app_targets]
    rcases List.mem_cons.mp hc with h | h
    · subst h
      rw [hl]
      exact List.mem_append.mpr (Or.inl hn)
    · exact List.mem_append.mpr (Or.inr (ih h))

theorem mem_app_targets_exists {sbc : RouteIndex} {cats : List String}
    {name : String} (h : name ∈ app_targets sbc cats) :
    ∃ cat ∈ cats, ∃ names, lookupIM sbc cat = some names ∧ name ∈ names := by
  induction cats with
  | nil => simp [app_targets] at h
  | cons c rest ih =>
    rw [app_targets] at h
    rcases List.mem_append.mp h with h | h
    · cases hl : lookupIM sbc c with
      | none =>
        rw [hl] at h
        simp at h
      | some ns =>
        rw [hl] at h
        exact ⟨c, List.mem_cons_self _ _, ns, hl, h⟩
    · obtain ⟨cat, hcm, ns, hl, hn⟩ := ih h
      exact ⟨cat, List.mem_cons_of_mem _ hcm, ns, hl, hn⟩

theorem app_matched_false_iff (sbc : RouteIndex) (app : MenuApplication) :
    app_matched sbc app = false ↔
      ∀ cat ∈ app.categories, lookupIM sbc cat = none := by
  rw [app_matched, List.any_eq_false]
  constructor
  · intro h cat hc
    have h2 := h cat hc
    cases hl : lookupIM sbc cat with
    | none => rfl
    | some ns =>
      rw [hl] at h2
      simp at h2
  · intro h cat hc
    rw [h cat hc]
    simp

theorem foldl_handle_false {rs : List Bool} (h : ∀ x ∈ rs, x = false) :
    ∀ c : Container, c.visible = false →
      (rs.foldl handle_show_if_result c).visible = false := by
  induction rs with
  | nil => intro c hc; exact hc
  | cons r rs ih =>
    intro c hc
    have hr : r = false := h r (List.mem_cons_self _ _)
    subst hr
    exact ih (fun x hx => h x (List.mem_cons_of_mem _ hx)) _ rfl

/-! Claim theorems. -/

/-- C4: for a discovered application name of N grapheme clusters with
N > max_label_length, the stored label is the first (max_label_length − 1)
clusters followed by a single ellipsis marker; with N ≤ max_label_length the
name is stored unchanged.  The truncation step presupposes
max_label_length ≥ 1 (see the underflow boundary theorem). -/
theorem truncation_spec (max_label_length : Nat) (name : List String)
    (h : 1 ≤ max_label_length) :
    (name.length > max_label_length →
      truncate_name max_label_length name =
        some (name.take (max_label_length - 1) ++ [ellipsis])) ∧
    (name.length ≤ max_label_length →
      truncate_name max_label_length name = some name) := by
  constructor
  · intro hgt
    rw [truncate_name, if_pos hgt, if_neg (by omega)]
  · intro hle
    rw [truncate_name, if_neg (by omega)]

/-- C4 witness: a three-cluster name truncated at limit 2 keeps one cluster
and gains the ellipsis; the default limit 25 leaves a short name alone. -/
theorem truncation_spec_witness :
    (1 ≤ 2 ∧
      truncate_name 2 ["a", "b", "c"] =
        some (["a", "b", "c"].take 1 ++ [ellipsis])) ∧
    (1 ≤ default_length ∧ truncate_name default_length ["a", "b", "c"] =
        some ["a", "b", "c"]) :=
  ⟨⟨by decide, (truncation_spec 2 ["a", "b", "c"] (by decide)).1 (by decide)⟩,
   ⟨by decide,
    (truncation_spec default_length ["a", "b", "c"] (by decide)).2 (by decide)⟩⟩

/-- C10: the truncation step is total on every name exactly when
max_label_length ≥ 1; with max_label_length = 0 a nonempty name drives the
usize subtraction `max_label_length - 1` into underflow, modelled as `none`. -/
theorem truncate_underflow_boundary (max_label_length : Nat) :
    (∀ name : List String, (truncate_name max_label_length name).isSome = true) ↔
      1 ≤ max_label_length := by
  constructor
  · intro h
    by_contra hc
    have h0 : max_label_length = 0 := by omega
    subst h0
    exact absurd (h ["x"]) (by decide)
  · intro h name
    rw [truncate_name]
    by_cases hgt : name.length > max_label_length
    · rw [if_pos hgt, if_neg (by omega)]
      rfl
    · rw [if_neg hgt]
      rfl

/-- C8: with no `show_if` script the container is shown unconditionally and
permanently; with a script every delivered poll result sets visibility
(`true` shows, `false` hides), so a container whose script always fails
stays hidden after every prefix of results. -/
theorem show_if_visibility (c : Container) (results : List Bool) :
    (install_show_if none c results).visible = true ∧
    (∀ (s : ScriptInput) (r : Bool),
      (install_show_if (some s) c (results ++ [r])).visible = r) ∧
    (∀ s : ScriptInput, (∀ x ∈ results, x = false) →
      ∀ n : Nat,
        (install_show_if (some s) ⟨false⟩ (results.take n)).visible = false) := by
  refine ⟨rfl, ?_, ?_⟩
  · intro s r
    show ((results ++ [r]).foldl handle_show_if_result c).visible = r
    rw [List.foldl_append]
    cases r <;> rfl
  · intro s h n
    show ((results.take n).foldl handle_show_if_result ⟨false⟩).visible = false
    exact foldl_handle_false (fun x hx => h x (List.take_subset n results hx)) _ rfl

/-- C8 witness: a failing script keeps the container hidden, a final success
shows it, and an absent script shows it unconditionally. -/
theorem show_if_visibility_witness :
    (install_show_if none ⟨false⟩ [false, false]).visible = true ∧
    (install_show_if (some "exit 0") ⟨false⟩ ([false, false] ++ [true])).visible = true ∧
    (install_show_if (some "exit 1") ⟨false⟩ ([false, false].take 2)).visible = false :=
  ⟨(show_if_visibility ⟨false⟩ [false, false]).1,
   (show_if_visibility ⟨false⟩ [false, false]).2.1 "exit 0" true,
   (show_if_visibility ⟨false⟩ [false, false]).2.2 "exit 1" (by decide) 2⟩

theorem mem_keysIM_of_lookup {α : Type} {m : List (String × α)} {k : String}
    {v : α} (h : lookupIM m k = some v) : k ∈ keysIM m :=
  List.mem_map_of_mem Prod.fst (lookupIM_mem h)

/-- C5: inserting the same ApplicationRecord twice into a section is
idempotent: the second insertion changes nothing, and the section holds
exactly one entry under the record's key, carrying the record's values. -/
theorem idempotent_insertion (s : XdgSection) (a : MenuApplication)
    (hs : SortedKeys s.applications) :
    insertXdg a (insertXdg a (MenuEntry.xdg s)) = insertXdg a (MenuEntry.xdg s) ∧
    ∃ s' : XdgSection, insertXdg a (MenuEntry.xdg s) = MenuEntry.xdg s' ∧
      lookupIM s'.applications a.label = some a ∧
      s'.applications.countP (fun p => p.1 == a.label) = 1 := by
  refine ⟨insertXdg_idem a (MenuEntry.xdg s),
    ⟨⟨s.label, s.icon, insert_sorted s.applications a.label a⟩, rfl,
      lookupIM_insert_sorted_self _ _ _, ?_⟩⟩
  refine countP_key_eq_one (sortedKeys_insert_sorted a.label a hs) ?_
  exact mem_keysIM_of_lookup (lookupIM_insert_sorted_self s.applications a.label a)

/-- C5 witness: double insertion of the demo record into an empty "Tools"
section equals single insertion, which stores exactly one entry. -/
theorem idempotent_insertion_witness :
    SortedKeys (([] : List (String × MenuApplication))) ∧
    (insertXdg demo_app (insertXdg demo_app (MenuEntry.xdg ⟨"Tools", none, []⟩)) =
        insertXdg demo_app (MenuEntry.xdg ⟨"Tools", none, []⟩) ∧
      ∃ s' : XdgSection,
        insertXdg demo_app (MenuEntry.xdg ⟨"Tools", none, []⟩) = MenuEntry.xdg s' ∧
        lookupIM s'.applications demo_app.label = some demo_app ∧
        s'.applications.countP (fun p => p.1 == demo_app.label) = 1) :=
  ⟨by simp [SortedKeys],
   idempotent_insertion ⟨"Tools", none, []⟩ demo_app (by simp [SortedKeys])⟩

/-- C9: section application maps are keyed by display label, not by the
identifier: two records with equal labels but different file names collapse
to a single entry whose fields are those of the later-inserted record, so
the surviving entry depends on arrival order. -/
theorem label_keyed_insertion (apps : List (String × MenuApplication))
    (a b : MenuApplication) (hs : SortedKeys apps) (hlab : a.label = b.label)
    (hfn : a.file_name ≠ b.file_name) :
    lookupIM (insert_sorted (insert_sorted apps a.label a) b.label b) a.label =
      some b ∧
    (insert_sorted (insert_sorted apps a.label a) b.label b).countP
        (fun p => p.1 == a.label) = 1 ∧
    lookupIM (insert_sorted (insert_sorted apps b.label b) a.label a) a.label =
      some a ∧
    insert_sorted (insert_sorted apps a.label a) b.label b ≠
      insert_sorted (insert_sorted apps b.label b) a.label a := by
  have hov : insert_sorted (insert_sorted apps a.label a) b.label b =
      insert_sorted apps b.label b := by
    rw [hlab]
    exact insert_sorted_overwrite apps b.label a b
  have h1 : lookupIM (insert_sorted (insert_sorted apps a.label a) b.label b)
      a.label = some b := by
    rw [hov, hlab]
    exact lookupIM_insert_sorted_self apps b.label b
  have h3 : lookupIM (insert_sorted (insert_sorted apps b.label b) a.label a)
      a.label = some a :=
    lookupIM_insert_sorted_self _ a.label a
  refine ⟨h1, ?_, h3, ?_⟩
  · rw [hov]
    refine countP_key_eq_one (sortedKeys_insert_sorted b.label b hs) ?_
    rw [hlab]
    exact mem_keysIM_of_lookup (lookupIM_insert_sorted_self apps b.label b)
  · intro he
    rw [he] at h1
    rw [h1] at h3
    exact hfn (congrArg MenuApplication.file_name (Option.some.inj h3)).symm

/-- C9 witness: the records `demo_a1` and `demo_a2` share the label "A" but
differ in file name; inserting both leaves one order-dependent entry. -/
theorem label_keyed_insertion_witness :
    SortedKeys (([] : List (String × MenuApplication))) ∧
    demo_a1.label = demo_a2.label ∧ demo_a1.file_name ≠ demo_a2.file_name ∧
    (lookupIM (insert_sorted (insert_sorted [] demo_a1.label demo_a1)
        demo_a2.label demo_a2) demo_a1.label = some demo_a2 ∧
      (insert_sorted (insert_sorted [] demo_a1.label demo_a1)
          demo_a2.label demo_a2).countP (fun p => p.1 == demo_a1.label) = 1 ∧
      lookupIM (insert_sorted (insert_sorted [] demo_a2.label demo_a2)
          demo_a1.label demo_a1) demo_a1.label = some demo_a1 ∧
      insert_sorted (insert_sorted [] demo_a1.label demo_a1)
          demo_a2.label demo_a2 ≠
        insert_sorted (insert_sorted [] demo_a2.label demo_a2)
          demo_a1.label demo_a1) :=
  ⟨by simp [SortedKeys], by decide, by decide,
   label_keyed_insertion [] demo_a1 demo_a2 (by simp [SortedKeys]) (by decide)
     (by decide)⟩

/-- C2 counterexample: a slot configuration declaring its sections in the
order [B, A] is stored in the order [A, B] — lexicographic label order, not
the declaration order claimed by the specification. -/
theorem config_order_counterexample :
    keysIM (parse_config
        [MenuConfig.xdgEntry ⟨"B", none, []⟩, MenuConfig.xdgEntry ⟨"A", none, []⟩]
        []).1 = ["A", "B"] ∧
      (["A", "B"] : List String) ≠ ["B", "A"] := by
  constructor
  · decide
  · decide

/-- C2 amended: the label → MenuEntry mapping produced at
configuration-parse time lists the entries sorted lexicographically by
label (`insert_sorted`), not in configuration declaration order, and that
label order is preserved unchanged by all later record processing. -/
theorem config_order_amended (cfgs : List MenuConfig) (sbc : RouteIndex)
    (start center end_cfg : List MenuConfig) (apps : List MenuApplication)
    (sl : Slot) :
    (keysIM (parse_config cfgs sbc).1).Pairwise (· < ·) ∧
    keysIM ((process_applications (parse_menu start center end_cfg).2
        (parse_menu start center end_cfg).1 apps).slotEntries sl) =
      keysIM ((parse_menu start center end_cfg).1.slotEntries sl) := by
  constructor
  · rw [keysIM, List.pairwise_map]
    exact sortedKeys_parse_config cfgs sbc
  · exact keysIM_process_applications _ apps sl _

/-- C7: for every section reachable in any slot after a parsed configuration
has processed any stream of records, the section's application labels are
strictly sorted — in particular lexicographically non-decreasing — and this
holds after every insertion, since every intermediate state is the final
state of a shorter stream. -/
theorem section_labels_sorted (start center end_cfg : List MenuConfig)
    (apps : List MenuApplication) (sl : Slot) (k : String) (s : XdgSection)
    (h : lookupIM ((process_applications (parse_menu start center end_cfg).2
        (parse_menu start center end_cfg).1 apps).slotEntries sl) k =
      some (MenuEntry.xdg s)) :
    (keysIM s.applications).Chain' (· ≤ ·) ∧
      (keysIM s.applications).Pairwise (· < ·) := by
  have hbase : SectionsSorted
      ((parse_menu start center end_cfg).1.slotEntries sl) := by
    cases sl
    · exact sectionsSorted_parse_config start []
    · exact sectionsSorted_parse_config center _
    · exact sectionsSorted_parse_config end_cfg _
  have hs : SectionsSorted ((process_applications
      (parse_menu start center end_cfg).2
      (parse_menu start center end_cfg).1 apps).slotEntries sl) :=
    sectionsSorted_process_applications _ apps sl _ hbase
  have hsk : SortedKeys s.applications := hs _ (lookupIM_mem h) s rfl
  have hpw : (keysIM s.applications).Pairwise (· < ·) := by
    rw [keysIM, List.pairwise_map]
    exact hsk
  exact ⟨(hpw.imp le_of_lt).chain', hpw⟩

/-- C7 witness: the record "Foo" routed to the catch-all section leaves a
section whose label list is sorted. -/
theorem section_labels_sorted_witness :
    lookupIM ((process_applications (parse_menu [] [MenuConfig.xdgOther] []).2
        (parse_menu [] [MenuConfig.xdgOther] []).1 [demo_foo]).slotEntries
        Slot.center) OTHER_LABEL =
      some (MenuEntry.xdg ⟨OTHER_LABEL, some "applications-other",
        [("Foo", demo_foo)]⟩) ∧
    ((keysIM [("Foo", demo_foo)]).Chain' (· ≤ ·) ∧
      (keysIM [("Foo", demo_foo)]).Pairwise (· < ·)) :=
  ⟨by decide,
   section_labels_sorted [] [MenuConfig.xdgOther] [] [demo_foo] Slot.center
     OTHER_LABEL ⟨OTHER_LABEL, some "applications-other", [("Foo", demo_foo)]⟩
     (by decide)⟩

/-- C3 counterexample: the two-element set of distinct records `demo_a1`
and `demo_a2` (equal labels, different identifiers) fed to the same fresh
aggregator in its two orders yields different final section contents, so
arrival-order independence fails without a distinct-labels assumption. -/
theorem arrival_order_counterexample :
    demo_a1 ≠ demo_a2 ∧
    ([demo_a1, demo_a2] : List MenuApplication).Perm [demo_a2, demo_a1] ∧
    process_applications (parse_menu [] [MenuConfig.xdgOther] []).2
        (parse_menu [] [MenuConfig.xdgOther] []).1 [demo_a1, demo_a2] ≠
      process_applications (parse_menu [] [MenuConfig.xdgOther] []).2
        (parse_menu [] [MenuConfig.xdgOther] []).1 [demo_a2, demo_a1] :=
  ⟨by decide, List.Perm.swap demo_a2 demo_a1 [], by decide⟩

/-- C3 amended: for records with pairwise-distinct labels, feeding any
permutation of the batch to a freshly parsed aggregator yields identical
final section contents and ordering. -/
theorem arrival_order_independence (start center end_cfg : List MenuConfig)
    {l₁ l₂ : List MenuApplication} (hp : l₁.Perm l₂)
    (hnd : (l₁.map MenuApplication.label).Nodup) :
    process_applications (parse_menu start center end_cfg).2
        (parse_menu start center end_cfg).1 l₁ =
      process_applications (parse_menu start center end_cfg).2
        (parse_menu start center end_cfg).1 l₂ :=
  process_applications_perm _ _ hp hnd

/-- C3 witness: two distinct-label records through the demo configuration in
both orders. -/
theorem arrival_order_independence_witness :
    ([demo_app, demo_foo] : List MenuApplication).Perm [demo_foo, demo_app] ∧
    ([demo_app, demo_foo].map MenuApplication.label).Nodup ∧
    process_applications (parse_menu demo_start demo_center demo_end).2
        (parse_menu demo_start demo_center demo_end).1 [demo_app, demo_foo] =
      process_applications (parse_menu demo_start demo_center demo_end).2
        (parse_menu demo_start demo_center demo_end).1 [demo_foo, demo_app] :=
  ⟨List.Perm.swap demo_foo demo_app [], by decide,
   arrival_order_independence demo_start demo_center demo_end
     (List.Perm.swap demo_foo demo_app []) (by decide)⟩

/-- C6: a category tag resolving to several section labels fans a matching
record out into every slot's section stored under any of those labels: after
the record is processed, each such section holds the record. -/
theorem fanout_insertion (sbc : RouteIndex) (st : MenuState)
    (app : MenuApplication) (cat : String) (names : List String) (name : String)
    (sl : Slot) (s : XdgSection) (hcat : cat ∈ app.categories)
    (hlook : lookupIM sbc cat = some names) (hname : name ∈ names)
    (hsec : lookupIM (st.slotEntries sl) name = some (MenuEntry.xdg s)) :
    lookupIM ((process_application sbc st app).slotEntries sl) name =
      some (MenuEntry.xdg ⟨s.label, s.icon,
        insert_sorted s.applications app.label app⟩) ∧
    ∃ s' : XdgSection,
      lookupIM ((process_application sbc st app).slotEntries sl) name =
        some (MenuEntry.xdg s') ∧
      lookupIM s'.applications app.label = some app := by
  have hm : app_matched sbc app = true := by
    rw [app_matched, List.any_eq_true]
    exact ⟨cat, hcat, by rw [hlook]; rfl⟩
  have hT : name ∈ app_targets sbc app.categories :=
    mem_app_targets hcat hlook hname
  have hEq : lookupIM ((process_application sbc st app).slotEntries sl) name =
      some (MenuEntry.xdg ⟨s.label, s.icon,
        insert_sorted s.applications app.label app⟩) := by
    rw [process_application_eq, if_pos hm, lookupIM_foldl_slot_insert, hsec]
    simp [hT, insertXdg]
  exact ⟨hEq, ⟨_, hEq, lookupIM_insert_sorted_self _ _ _⟩⟩

/-- C6 witness: in the demo configuration the tag "Utility" routes to the
"Tools" section (start slot) and the "Stuff" section (end slot); the record
lands in the start slot's "Tools" section (and symmetrically in "Stuff"). -/
theorem fanout_insertion_witness :
    "Utility" ∈ demo_app.categories ∧
    lookupIM (parse_menu demo_start demo_center demo_end).2 "Utility" =
      some ["Tools", "Stuff"] ∧
    "Tools" ∈ ["Tools", "Stuff"] ∧
    lookupIM ((parse_menu demo_start demo_center demo_end).1.slotEntries
        Slot.start) "Tools" = some (MenuEntry.xdg ⟨"Tools", none, []⟩) ∧
    (lookupIM ((process_application
        (parse_menu demo_start demo_center demo_end).2
        (parse_menu demo_start demo_center demo_end).1 demo_app).slotEntries
        Slot.start) "Tools" =
      some (MenuEntry.xdg ⟨"Tools", none,
        insert_sorted [] demo_app.label demo_app⟩) ∧
    ∃ s' : XdgSection,
      lookupIM ((process_application
          (parse_menu demo_start demo_center demo_end).2
          (parse_menu demo_start demo_center demo_end).1 demo_app).slotEntries
          Slot.start) "Tools" = some (MenuEntry.xdg s') ∧
      lookupIM s'.applications demo_app.label = some demo_app) :=
  ⟨by decide, by decide, by decide, by decide,
   fanout_insertion (parse_menu demo_start demo_center demo_end).2
     (parse_menu demo_start demo_center demo_end).1 demo_app "Utility"
     ["Tools", "Stuff"] "Tools" Slot.start ⟨"Tools", none, []⟩ (by decide)
     (by decide) (by decide) (by decide)⟩

/-- C1: overflow exclusivity — provided the reserved "Other" label is not
itself the target of any category route, a processed record appears in the
center slot's "Other" section exactly when none of its category tags is
present in the category index; one hit anywhere (in any slot's routes)
suppresses overflow routing entirely. -/
theorem overflow_exclusivity (sbc : RouteIndex) (st : MenuState)
    (app : MenuApplication) (O : XdgSection)
    (hother : lookupIM st.center_entries OTHER_LABEL = some (MenuEntry.xdg O))
    (hnotin : lookupIM O.applications app.label = none)
    (hreserved : ∀ p ∈ sbc, OTHER_LABEL ∉ p.2) :
    (∃ s' : XdgSection,
        lookupIM (process_application sbc st app).center_entries OTHER_LABEL =
          some (MenuEntry.xdg s') ∧
        lookupIM s'.applications app.label = some app) ↔
      ∀ cat ∈ app.categories, lookupIM sbc cat = none := by
  by_cases hm : app_matched sbc app = true
  · have hT : OTHER_LABEL ∉ app_targets sbc app.categories := by
      intro hmem
      obtain ⟨cat, hc, ns, hl, hn⟩ := mem_app_targets_exists hmem
      exact hreserved (cat, ns) (lookupIM_mem hl) hn
    have hEq : lookupIM (process_application sbc st app).center_entries
        OTHER_LABEL = some (MenuEntry.xdg O) := by
      rw [process_application_eq, if_pos hm]
      have h2 : lookupIM (((app_targets sbc app.categories).foldl
          (slot_insert app) st).center_entries) OTHER_LABEL =
          (lookupIM st.center_entries OTHER_LABEL).map
            (fun e => if OTHER_LABEL ∈ app_targets sbc app.categories then
              insertXdg app e else e) :=
        lookupIM_foldl_slot_insert app _ Slot.center OTHER_LABEL st
      rw [h2, hother]
      simp [hT]
    constructor
    · rintro ⟨s', hs', happ⟩
      exfalso
      rw [hEq] at hs'
      have h4 : O = s' := MenuEntry.xdg.inj (Option.some.inj hs')
      rw [← h4, hnotin] at happ
      exact Option.noConfusion happ
    · intro hall
      exfalso
      have hfalse : app_matched sbc app = false :=
        (app_matched_false_iff sbc app).mpr hall
      rw [hm] at hfalse
      exact Bool.noConfusion hfalse
  · have hm' : app_matched sbc app = false := by
      cases hb : app_matched sbc app
      · rfl
      · exact absurd hb hm
    constructor
    · intro _
      exact (app_matched_false_iff sbc app).mp hm'
    · intro _
      refine ⟨⟨O.label, O.icon, insert_sorted O.applications app.label app⟩, ?_,
        lookupIM_insert_sorted_self _ _ _⟩
      rw [process_application_eq, if_neg hm]
      show lookupIM (insert_app_if_xdg st.center_entries OTHER_LABEL app)
          OTHER_LABEL = _
      rw [lookupIM_insert_app_if_xdg_self, hother]
      rfl

/-- C1 witness: in the demo configuration the record "Foo" (tag "Unknown",
matching nothing) is routed to "Other", and the characterizing
if-and-only-if holds at this concrete input. -/
theorem overflow_exclusivity_witness :
    lookupIM (parse_menu demo_start demo_center demo_end).1.center_entries
        OTHER_LABEL =
      some (MenuEntry.xdg ⟨OTHER_LABEL, some "applications-other", []⟩) ∧
    lookupIM ([] : List (String × MenuApplication)) demo_foo.label = none ∧
    (∀ p ∈ (parse_menu demo_start demo_center demo_end).2, OTHER_LABEL ∉ p.2) ∧
    ((∃ s' : XdgSection,
        lookupIM (process_application
            (parse_menu demo_start demo_center demo_end).2
            (parse_menu demo_start demo_center demo_end).1
            demo_foo).center_entries OTHER_LABEL =
          some (MenuEntry.xdg s') ∧
        lookupIM s'.applications demo_foo.label = some demo_foo) ↔
      ∀ cat ∈ demo_foo.categories,
        lookupIM (parse_menu demo_start demo_center demo_end).2 cat = none) :=
  ⟨by decide, by decide, by decide,
   overflow_exclusivity (parse_menu demo_start demo_center demo_end).2
     (parse_menu demo_start demo_center demo_end).1 demo_foo
     ⟨OTHER_LABEL, some "applications-other", []⟩ (by decide) (by decide)
     (by decide)⟩
